import Mathlib

/-!
Verification of the Score Analytics Engine of the student-score-analyzer
repository (src/src/index.js, component StudentScoreAnalyzer).

JavaScript numbers are modelled as exact rationals (ℚ) where the code is
algebraic, and as real numbers (ℝ) where the code calls transcendental
functions (Math.sqrt, Math.exp, Math.log, Math.cos).  `x.toFixed(d)`
produces the decimal string for the integer nearest to `x·10^d` (ties
towards +∞, per ECMAScript which picks the larger candidate), that integer
being `⌊x·10^d + 1/2⌋`; `Math.round x` is `⌊x + 1/2⌋`.
`parseFloat(x.toFixed(2))` is therefore the value `⌊x·100 + 1/2⌋ / 100`,
which is how the round-trip through the formatted statistics record is
modelled.  Quantities that the source keeps as exact integers (histogram
loop indices, bin bounds) are modelled in ℤ and cast into ℚ at the
comparisons.
-/

/-- `Math.round x`. -/
def jsRound (q : ℚ) : ℤ := ⌊q + 1/2⌋

/-- Numeric value of `x.toFixed(1)`, i.e. `parseFloat(x.toFixed(1))`. -/
def fix1 (q : ℚ) : ℚ := (⌊q * 10 + 1/2⌋ : ℚ) / 10

/-- Numeric value of `x.toFixed(2)`, i.e. `parseFloat(x.toFixed(2))`. -/
def fix2 (q : ℚ) : ℚ := (⌊q * 100 + 1/2⌋ : ℚ) / 100

/-- Two-digit zero-padded rendering of a natural number below 100. -/
def pad2 (n : ℕ) : String := if n < 10 then "0" ++ toString n else toString n

/-- Decimal rendering of `t/10` with one forced decimal digit. -/
def fix1StrInt (t : ℤ) : String :=
  (if t < 0 then "-" else "") ++ toString (t.natAbs / 10) ++ "." ++ toString (t.natAbs % 10)

/-- Decimal rendering of `t/100` with two forced decimal digits. -/
def fix2StrInt (t : ℤ) : String :=
  (if t < 0 then "-" else "") ++ toString (t.natAbs / 100) ++ "." ++ pad2 (t.natAbs % 100)

/-- The string `x.toFixed(1)` for a rational `x`. -/
def fix1Str (q : ℚ) : String := fix1StrInt ⌊q * 10 + 1/2⌋

/-- The string `x.toFixed(2)` for a rational `x`. -/
def fix2Str (q : ℚ) : String := fix2StrInt ⌊q * 100 + 1/2⌋

/-- `Math.min(...scores)` (only applied to non-empty input in the source). -/
def minOf : List ℚ → ℚ
  | [] => 0
  | x :: xs => xs.foldl min x

/-- `Math.max(...scores)` (only applied to non-empty input in the source). -/
def maxOf : List ℚ → ℚ
  | [] => 0
  | x :: xs => xs.foldl max x

/-- One histogram bin, as pushed by `histogramData`:
`{ range: "i-(i+4)", count, midpoint: i + 2.5 }`. -/
structure HistBin where
  range : String
  count : ℕ
  midpoint : ℚ
deriving DecidableEq

/-- The bin the loop body of `histogramData` builds for loop index `i`
(an exact integer in the source): label `"i-(i+4)"`, count of scores `s`
with `i ≤ s < i + 5`, midpoint `i + 5/2`. -/
def mkBin (scores : List ℚ) (i : ℤ) : HistBin :=
  { range := toString i ++ "-" ++ toString (i + 4)
    count := (scores.filter (fun s => decide ((i:ℚ) ≤ s) && decide (s < ((i + 5 : ℤ) : ℚ)))).length
    midpoint := (i:ℚ) + 5/2 }

/-- The bins produced by `n` iterations of the loop
`for (let i = start; ...; i += 5)`. -/
def binsFrom (scores : List ℚ) : ℤ → ℕ → List HistBin
  | _, 0 => []
  | i, Nat.succ n => mkBin scores i :: binsFrom scores (i + 5) n

/-- `histogramData`: empty input gives `[]`; otherwise bins of width 5 from
`minScore = 5·⌊min/5⌋` up to `maxScore = 5·⌈max/5⌉` inclusive; the loop
`for (i = minScore; i <= maxScore; i += 5)` executes
`(maxScore - minScore)/5 + 1` times (the difference is a multiple of 5). -/
def histogramData (scores : List ℚ) : List HistBin :=
  if scores = [] then []
  else binsFrom scores (5 * ⌊minOf scores / 5⌋)
    ((5 * ⌈maxOf scores / 5⌉ - 5 * ⌊minOf scores / 5⌋) / 5 + 1).toNat

/-- The string `x.toFixed(2)` for a real `x`. -/
noncomputable def fix2StrR (r : ℝ) : String := fix2StrInt ⌊r * 100 + 1/2⌋

/-- `[...scores].sort((a, b) => a - b)`: numeric ascending sort. -/
def sortQ (l : List ℚ) : List ℚ := List.insertionSort (· ≤ ·) l

/-- `sum / n` as in `stats` (`scores.reduce((acc, score) => acc + score, 0) / n`). -/
def meanOf (l : List ℚ) : ℚ := l.sum / l.length

/-- Sample variance as in `stats`:
`scores.reduce((acc, score) => acc + Math.pow(score - mean, 2), 0) / (n - 1)`. -/
def varianceOf (l : List ℚ) : ℚ :=
  (l.map (fun s => (s - meanOf l) ^ 2)).sum / ((l.length : ℚ) - 1)

/-- `Math.sqrt(variance)`. -/
noncomputable def standardDevOf (l : List ℚ) : ℝ :=
  Real.sqrt ((varianceOf l : ℚ) : ℝ)

/-- `sorted[q1Index]` with `q1Index = Math.floor(n * 0.25)` (`= n / 4` in ℕ,
exact in the source as binary floats represent `n·0.25` exactly). -/
def q1Of (l : List ℚ) : ℚ := (sortQ l).getD (l.length / 4) 0

/-- `sorted[q3Index]` with `q3Index = Math.floor(n * 0.75) = 3n/4`. -/
def q3Of (l : List ℚ) : ℚ := (sortQ l).getD (3 * l.length / 4) 0

/-- The median as in `stats`: average of the entries at `medianIndex - 1` and
`medianIndex` when `n` is even, else the entry at `medianIndex = ⌊n/2⌋`. -/
def medianOf (l : List ℚ) : ℚ :=
  if l.length % 2 = 0 then
    ((sortQ l).getD (l.length / 2 - 1) 0 + (sortQ l).getD (l.length / 2) 0) / 2
  else (sortQ l).getD (l.length / 2) 0

/-- The mutable state of `getMode`'s `forEach` loop.  The JavaScript
`frequency` object is modelled by the list `seen` of already-processed
rounded values (`frequency[r] = seen.count r`, and the number of keys of
`frequency` is `seen.dedup.length`). -/
structure ModeSt where
  seen : List ℤ
  maxFreq : ℕ
  modes : List ℤ

/-- One iteration of `getMode`'s loop body: increment the frequency of the
rounded value `r`; if it now exceeds `maxFreq`, reset `modes` to `[r]`;
else if it equals `maxFreq` and `r` is not yet listed, append it. -/
def modeStep (st : ModeSt) (r : ℤ) : ModeSt :=
  if (st.seen ++ [r]).count r > st.maxFreq then
    ⟨st.seen ++ [r], (st.seen ++ [r]).count r, [r]⟩
  else if (st.seen ++ [r]).count r = st.maxFreq ∧ r ∉ st.modes then
    ⟨st.seen ++ [r], st.maxFreq, st.modes ++ [r]⟩
  else ⟨st.seen ++ [r], st.maxFreq, st.modes⟩

/-- `getMode` after rounding: fold the loop body over the rounded scores,
then report "No mode" when `modes.length === Object.keys(frequency).length`,
else `modes.join(', ')`. -/
def getModeZ (l : List ℤ) : String :=
  let st := l.foldl modeStep ⟨[], 0, []⟩
  if st.modes.length = st.seen.dedup.length then "No mode"
  else String.intercalate ", " (st.modes.map toString)

/-- `getMode(arr)` of the source: each score is rounded with `Math.round`
as it is tallied. -/
def getMode (arr : List ℚ) : String := getModeZ (arr.map jsRound)

/-- The record returned by `stats` for non-empty input; every numeric field
except `count` is a `toFixed` string, exactly as in the source. -/
structure StatsRec where
  count : ℕ
  mean : String
  median : String
  mode : String
  min : String
  max : String
  range : String
  q1 : String
  q3 : String
  iqr : String
  standardDev : String
  variance : String

/-- `stats`: `{}` on empty input (modelled as `none`), otherwise the record
of formatted summary statistics. -/
noncomputable def stats (scores : List ℚ) : Option StatsRec :=
  if scores = [] then none
  else some
    { count := scores.length
      mean := fix2Str (meanOf scores)
      median := fix2Str (medianOf scores)
      mode := getMode scores
      min := fix1Str (minOf scores)
      max := fix1Str (maxOf scores)
      range := fix1Str (maxOf scores - minOf scores)
      q1 := fix1Str (q1Of scores)
      q3 := fix1Str (q3Of scores)
      iqr := fix1Str (q3Of scores - q1Of scores)
      standardDev := fix2StrR (standardDevOf scores)
      variance := fix2Str (varianceOf scores) }

/-- A JavaScript value that is either a plain number or a string; the
`cutoffStats` record holds plain numbers on the empty-input path and
`toFixed(1)` strings otherwise. -/
inductive JsVal where
  | num (q : ℚ)
  | str (s : String)
deriving DecidableEq

/-- The record returned by `cutoffStats` (`atC` models the source field
`at`, which is a reserved word in Lean). -/
structure CutoffRec where
  below : JsVal
  above : JsVal
  atC : JsVal
deriving DecidableEq

/-- `cutoffStats`: `{ below: 0, above: 0, at: 0 }` on empty input, else the
three percentages `count / scores.length * 100` formatted with
`toFixed(1)`. -/
def cutoffStats (scores : List ℚ) (cutoffScore : ℚ) : CutoffRec :=
  if scores.length = 0 then ⟨.num 0, .num 0, .num 0⟩
  else
    ⟨.str (fix1Str (((scores.filter (fun s => decide (s < cutoffScore))).length : ℚ) /
        scores.length * 100)),
     .str (fix1Str (((scores.filter (fun s => decide (cutoffScore < s))).length : ℚ) /
        scores.length * 100)),
     .str (fix1Str (((scores.filter (fun s => decide (s = cutoffScore))).length : ℚ) /
        scores.length * 100))⟩

/-- Numeric value of `x.toFixed(1)` for a real `x`. -/
noncomputable def fix1R (r : ℝ) : ℝ := (⌊r * 10 + 1/2⌋ : ℝ) / 10

/-- Numeric value of `x.toFixed(2)` for a real `x` (the value
`parseFloat(stats.standardDev)` recovers from the formatted record). -/
noncomputable def fix2R (r : ℝ) : ℝ := (⌊r * 100 + 1/2⌋ : ℝ) / 100

/-- One point of the density curve.  The source stores `x` as the string
`x.toFixed(1)`; it is modelled by the numeric value of that string. -/
structure DensityPoint where
  x : ℝ
  y : ℝ
  belowCutoff : Prop

/-- Default `DensityPoint` used with `List.getD`. -/
def dpDefault : DensityPoint := ⟨0, 0, False⟩

/-- `parseFloat(stats.mean)`: the mean rounded to 2 decimals. -/
noncomputable def curveMean (scores : List ℚ) : ℝ := ((fix2 (meanOf scores) : ℚ) : ℝ)

/-- `parseFloat(stats.standardDev)`: the standard deviation rounded to 2
decimals. -/
noncomputable def curveSd (scores : List ℚ) : ℝ := fix2R (standardDevOf scores)

/-- The Gaussian density expression of `normalCurveData`:
`(1 / (sd * Math.sqrt(2 * Math.PI))) * Math.exp(-0.5 * Math.pow((x - mean) / sd, 2))`. -/
noncomputable def gaussPdf (mean sd x : ℝ) : ℝ :=
  (1 / (sd * Real.sqrt (2 * Real.pi))) * Real.exp (-(1/2) * ((x - mean) / sd) ^ 2)

/-- The loop variable of `normalCurveData` after `k` increments:
`x = mean - 4*sd + k*0.5` (exact real arithmetic). -/
noncomputable def gridX (scores : List ℚ) (k : ℕ) : ℝ :=
  curveMean scores - 4 * curveSd scores + k * (1/2)

/-- Number of iterations of `for (x = mean-4sd; x <= mean+4sd; x += 0.5)`:
the loop body runs for `k` with `k/2 ≤ 8·sd`, i.e. `⌊16·sd⌋ + 1` times
(the parsed standard deviation is nonnegative). -/
noncomputable def numPoints (scores : List ℚ) : ℕ := (⌊16 * curveSd scores⌋).toNat + 1

/-- `normalCurveData`: empty when `stats.mean` is falsy (exactly the empty
sample, as `stats.mean` is otherwise a non-empty string); else one point per
loop iteration, `y` being the density at the re-parsed 2-decimal mean and
standard deviation, scaled by `scores.length * 5`. -/
noncomputable def normalCurveData (scores : List ℚ) (cutoffScore : ℚ) : List DensityPoint :=
  if scores = [] then []
  else (List.range (numPoints scores)).map fun k =>
    { x := fix1R (gridX scores k)
      y := gaussPdf (curveMean scores) (curveSd scores) (gridX scores k) * scores.length * 5
      belowCutoff := gridX scores k ≤ ((cutoffScore : ℚ) : ℝ) }

/-- `z0 = Math.sqrt(-2 * Math.log(u1)) * Math.cos(2 * Math.PI * u2)`. -/
noncomputable def boxMullerZ (u1 u2 : ℝ) : ℝ :=
  Real.sqrt (-2 * Real.log u1) * Real.cos (2 * Real.pi * u2)

/-- `Math.round(x * 10) / 10`. -/
noncomputable def jsRound10R (x : ℝ) : ℝ := (⌊x * 10 + 1/2⌋ : ℝ) / 10

/-- One generated score:
`Math.max(0, Math.min(100, Math.round((meanScore + stdDev*z0) * 10) / 10))`. -/
noncomputable def boxMullerScore (meanScore stdDev u1 u2 : ℝ) : ℝ :=
  max 0 (min 100 (jsRound10R (meanScore + stdDev * boxMullerZ u1 u2)))

/-- `generateScores`: one score per loop iteration `k` (with `u1, u2` drawn
from the random source at iteration `k`), then
`newScores.sort((a, b) => a - b)`. -/
noncomputable def generateScores (numStudents : ℕ) (meanScore stdDev : ℝ)
    (rand : ℕ → ℝ × ℝ) : List ℝ :=
  List.insertionSort (· ≤ ·)
    ((List.range numStudents).map
      (fun k => boxMullerScore meanScore stdDev (rand k).1 (rand k).2))

/-- The maximum frequency over a tally list: the largest count attained by
any element of `l` (0 for the empty list). -/
def maxFreqOf (l : List ℤ) : ℕ := (l.map (fun v => l.count v)).foldr max 0

/-- Scan `rest`, given the already-processed prefix `seen`, and emit each
value at the moment its running count reaches exactly `m`. -/
def reachAux (m : ℕ) : List ℤ → List ℤ → List ℤ
  | _, [] => []
  | seen, v :: rest =>
    if seen.count v + 1 = m then v :: reachAux m (seen ++ [v]) rest
    else reachAux m (seen ++ [v]) rest

/-- The values of `l` in the order their running tally first reaches `m`. -/
def reachOrder (l : List ℤ) (m : ℕ) : List ℤ := reachAux m [] l

/-- Duplicate-free copy of `l` keeping first occurrences, in order. -/
def firstEncounterAux : List ℤ → List ℤ → List ℤ
  | acc, [] => acc
  | acc, x :: xs =>
    if x ∈ acc then firstEncounterAux acc xs else firstEncounterAux (acc ++ [x]) xs

/-- The distinct values of `l` in first-encountered order. -/
def firstEncounter (l : List ℤ) : List ℤ := firstEncounterAux [] l

/-- Modelled from the claim C3 text: "No mode" exactly when every distinct
rounded value occurs with the same frequency, otherwise the comma-joined
list of all rounded values achieving the maximum frequency, listed in the
order those values were first encountered during the tally. -/
def getModeSpecC3 (arr : List ℚ) : String :=
  let l := arr.map jsRound
  if ∀ v ∈ l, l.count v = maxFreqOf l then "No mode"
  else String.intercalate ", "
    (((firstEncounter l).filter (fun v => decide (l.count v = maxFreqOf l))).map toString)

/-- Establish `⌊q⌋ = z` from the two defining inequalities. -/
theorem floorQ_eval {q : ℚ} {z : ℤ} (h1 : (z:ℚ) ≤ q) (h2 : q < z + 1) : ⌊q⌋ = z :=
  Int.floor_eq_iff.mpr ⟨h1, h2⟩

/-- Establish `⌈q⌉ = z` from the two defining inequalities. -/
theorem ceilQ_eval {q : ℚ} {z : ℤ} (h1 : (z:ℚ) - 1 < q) (h2 : q ≤ z) : ⌈q⌉ = z :=
  Int.ceil_eq_iff.mpr ⟨h1, h2⟩

/-- Establish `⌊r⌋ = z` for a real `r` from the two defining inequalities. -/
theorem floorR_eval {r : ℝ} {z : ℤ} (h1 : (z:ℝ) ≤ r) (h2 : r < z + 1) : ⌊r⌋ = z :=
  Int.floor_eq_iff.mpr ⟨h1, h2⟩

/-- C1: the Histogram Builder on [2,7,7,19] does NOT return exactly the four
bins "0-4":1, "5-9":2, "10-14":0, "15-19":1 — the loop also emits a trailing
bin starting at the upper bound 20. -/
theorem histogram_scenario5_counterexample :
    ¬ ((histogramData [2, 7, 7, 19]).map (fun b => (b.range, b.count)) =
      [("0-4", 1), ("5-9", 2), ("10-14", 0), ("15-19", 1)]) := by
  have hmin : minOf [2, 7, 7, 19] = 2 := by decide
  have hmax : maxOf [2, 7, 7, 19] = 19 := by decide
  have hlo : ⌊(2 : ℚ) / 5⌋ = 0 := floorQ_eval (by norm_num) (by norm_num)
  have hhi : ⌈(19 : ℚ) / 5⌉ = 4 := ceilQ_eval (by norm_num) (by norm_num)
  rw [histogramData, if_neg (show ¬([2, 7, 7, 19] : List ℚ) = [] by decide),
    hmin, hmax, hlo, hhi]
  decide

/-- C4: the Descriptive Statistics Calculator on [10, 20, 30, 40] reports
mean 25.00, median 25.00 (average of the two central values), sample
variance 166.67 (dividing by n-1), standard deviation 12.91, Q1 = 20.0
(sorted value at index ⌊4·0.25⌋ = 1), Q3 = 40.0 (index ⌊4·0.75⌋ = 3) and
IQR = 20.0. -/
theorem stats_scenario1 :
    ∃ r, stats [10, 20, 30, 40] = some r ∧ r.mean = "25.00" ∧ r.median = "25.00" ∧
      r.variance = "166.67" ∧ r.standardDev = "12.91" ∧
      r.q1 = "20.0" ∧ r.q3 = "40.0" ∧ r.iqr = "20.0" := by
  have hsort : sortQ [10, 20, 30, 40] = [10, 20, 30, 40] := by decide
  have hmean : meanOf [10, 20, 30, 40] = 25 := by norm_num [meanOf]
  have hvar : varianceOf [10, 20, 30, 40] = 500 / 3 := by
    norm_num [varianceOf, hmean]
  have hq1 : q1Of [10, 20, 30, 40] = 20 := by simp [q1Of, hsort]
  have hq3 : q3Of [10, 20, 30, 40] = 40 := by simp [q3Of, hsort]
  have hmed : medianOf [10, 20, 30, 40] = 25 := by
    rw [medianOf, hsort]; norm_num
  have e25 : fix2Str (25 : ℚ) = "25.00" := by
    rw [fix2Str, show (⌊(25:ℚ) * 100 + 1/2⌋ : ℤ) = 2500 from
      floorQ_eval (by norm_num) (by norm_num)]
    decide
  have evar : fix2Str (500 / 3 : ℚ) = "166.67" := by
    rw [fix2Str, show (⌊(500/3:ℚ) * 100 + 1/2⌋ : ℤ) = 16667 from
      floorQ_eval (by norm_num) (by norm_num)]
    decide
  have eq1 : fix1Str (20 : ℚ) = "20.0" := by
    rw [fix1Str, show (⌊(20:ℚ) * 10 + 1/2⌋ : ℤ) = 200 from
      floorQ_eval (by norm_num) (by norm_num)]
    decide
  have eq3 : fix1Str (40 : ℚ) = "40.0" := by
    rw [fix1Str, show (⌊(40:ℚ) * 10 + 1/2⌋ : ℤ) = 400 from
      floorQ_eval (by norm_num) (by norm_num)]
    decide
  have esd : fix2StrR (standardDevOf [10, 20, 30, 40]) = "12.91" := by
    rw [standardDevOf, hvar, show (((500/3 : ℚ) : ℝ)) = 500/3 by push_cast; ring]
    have h1 : (12.905 : ℝ) ≤ Real.sqrt (500/3) :=
      (Real.le_sqrt' (by norm_num)).mpr (by norm_num)
    have h2 : Real.sqrt (500/3) < 12.915 :=
      (Real.sqrt_lt' (by norm_num)).mpr (by norm_num)
    rw [fix2StrR, show (⌊Real.sqrt (500/3) * 100 + 1/2⌋ : ℤ) = 1291 from
      floorR_eval (by linarith) (by push_cast; linarith)]
    decide
  rw [stats, if_neg (show ¬([10, 20, 30, 40] : List ℚ) = [] by decide)]
  refine ⟨_, rfl, ?_, ?_, ?_, ?_, ?_, ?_, ?_⟩
  · show fix2Str (meanOf [10, 20, 30, 40]) = "25.00"
    rw [hmean]; exact e25
  · show fix2Str (medianOf [10, 20, 30, 40]) = "25.00"
    rw [hmed]; exact e25
  · show fix2Str (varianceOf [10, 20, 30, 40]) = "166.67"
    rw [hvar]; exact evar
  · exact esd
  · show fix1Str (q1Of [10, 20, 30, 40]) = "20.0"
    rw [hq1]; exact eq1
  · show fix1Str (q3Of [10, 20, 30, 40]) = "40.0"
    rw [hq3]; exact eq3
  · show fix1Str (q3Of [10, 20, 30, 40] - q1Of [10, 20, 30, 40]) = "20.0"
    rw [hq3, hq1, show (40 : ℚ) - 20 = 20 by norm_num]; exact eq1

/-- C1 (amended): on [2,7,7,19] the Histogram Builder returns the bins
"0-4":1, "5-9":2, "10-14":0, "15-19":1 (lower bound 0, upper bound 20, the
maximum 19 captured by bin "15-19") followed by a trailing empty bin
"20-24":0 that starts at the upper bound. -/
theorem histogram_scenario5_amended :
    (histogramData [2, 7, 7, 19]).map (fun b => (b.range, b.count)) =
      [("0-4", 1), ("5-9", 2), ("10-14", 0), ("15-19", 1), ("20-24", 0)] := by
  have hmin : minOf [2, 7, 7, 19] = 2 := by decide
  have hmax : maxOf [2, 7, 7, 19] = 19 := by decide
  have hlo : ⌊(2 : ℚ) / 5⌋ = 0 := floorQ_eval (by norm_num) (by norm_num)
  have hhi : ⌈(19 : ℚ) / 5⌉ = 4 := ceilQ_eval (by norm_num) (by norm_num)
  rw [histogramData, if_neg (show ¬([2, 7, 7, 19] : List ℚ) = [] by decide),
    hmin, hmax, hlo, hhi]
  decide

/-- C5: for every sample and cutoff, the strict-below, equal and
strict-above counts partition the sample, and the reported record holds
each percentage `count / total * 100` formatted with `toFixed(1)`. -/
theorem cutoff_partition (scores : List ℚ) (c : ℚ) :
    (scores.filter (fun s => decide (s < c))).length +
      (scores.filter (fun s => decide (s = c))).length +
      (scores.filter (fun s => decide (c < s))).length = scores.length ∧
    (scores ≠ [] →
      cutoffStats scores c =
        ⟨JsVal.str (fix1Str (((scores.filter (fun s => decide (s < c))).length : ℚ) /
            scores.length * 100)),
         JsVal.str (fix1Str (((scores.filter (fun s => decide (c < s))).length : ℚ) /
            scores.length * 100)),
         JsVal.str (fix1Str (((scores.filter (fun s => decide (s = c))).length : ℚ) /
            scores.length * 100))⟩) := by
  constructor
  · induction scores with
    | nil => rfl
    | cons x xs ih =>
      have key : ∀ p : ℚ → Bool,
          ((x :: xs).filter p).length = (xs.filter p).length + if p x then 1 else 0 := by
        intro p; by_cases hp : p x <;> simp [List.filter_cons, hp]
      rw [key, key, key, List.length_cons]
      rcases lt_trichotomy x c with h | h | h
      · have h1 : decide (x < c) = true := by simp [h]
        have h2 : decide (x = c) = false := by simp [ne_of_lt h]
        have h3 : decide (c < x) = false := by simp [lt_asymm h]
        rw [h1, h2, h3]; simp; omega
      · have h1 : decide (x < c) = false := by simp [h]
        have h2 : decide (x = c) = true := by simp [h]
        have h3 : decide (c < x) = false := by simp [h]
        rw [h1, h2, h3]; simp; omega
      · have h1 : decide (x < c) = false := by simp [lt_asymm h]
        have h2 : decide (x = c) = false := by simp [(ne_of_lt h).symm]
        have h3 : decide (c < x) = true := by simp [h]
        rw [h1, h2, h3]; simp; omega
  · intro h
    rw [cutoffStats, if_neg (by simpa using h)]

/-- Witness for C5 at Scenario 4 (sample [70,75,75,80], cutoff 75). -/
theorem cutoff_partition_witness :
    (([70, 75, 75, 80] : List ℚ).filter (fun s => decide (s < 75))).length +
      (([70, 75, 75, 80] : List ℚ).filter (fun s => decide (s = (75:ℚ)))).length +
      (([70, 75, 75, 80] : List ℚ).filter (fun s => decide ((75:ℚ) < s))).length =
      ([70, 75, 75, 80] : List ℚ).length ∧
    cutoffStats [70, 75, 75, 80] 75 =
      ⟨JsVal.str (fix1Str (((([70, 75, 75, 80] : List ℚ).filter
            (fun s => decide (s < 75))).length : ℚ) / ([70, 75, 75, 80] : List ℚ).length * 100)),
       JsVal.str (fix1Str (((([70, 75, 75, 80] : List ℚ).filter
            (fun s => decide ((75:ℚ) < s))).length : ℚ) / ([70, 75, 75, 80] : List ℚ).length * 100)),
       JsVal.str (fix1Str (((([70, 75, 75, 80] : List ℚ).filter
            (fun s => decide (s = (75:ℚ)))).length : ℚ) / ([70, 75, 75, 80] : List ℚ).length * 100))⟩ := by
  exact ⟨(cutoff_partition [70, 75, 75, 80] 75).1,
    (cutoff_partition [70, 75, 75, 80] 75).2 (by decide)⟩

/-- C9: empty input is a defined "no data" state: `stats` returns the empty
record, the Histogram Builder and the Density Curve Generator return empty
sequences. -/
theorem empty_input_defined :
    stats [] = none ∧ histogramData [] = [] ∧ ∀ c : ℚ, normalCurveData [] c = [] :=
  ⟨rfl, rfl, fun _ => rfl⟩

/-- C10: on an empty sample the Threshold Classifier returns plain numeric
zeros (not formatted percentage strings) for every cutoff. -/
theorem cutoff_empty_plain_zeros (c : ℚ) :
    cutoffStats [] c = ⟨JsVal.num 0, JsVal.num 0, JsVal.num 0⟩ := rfl

/-- `sortQ` sorts with respect to `≤`. -/
theorem sortQ_sorted (l : List ℚ) : (sortQ l).Sorted (· ≤ ·) :=
  List.sorted_insertionSort _ l

/-- `sortQ` preserves length. -/
theorem sortQ_length (l : List ℚ) : (sortQ l).length = l.length :=
  List.length_insertionSort _ l

/-- In a `≤`-sorted list, `getD` (with any in-range indices) is monotone. -/
theorem sorted_getD_mono {l : List ℚ} (hs : l.Sorted (· ≤ ·)) {i j : ℕ}
    (hij : i ≤ j) (hj : j < l.length) : l.getD i 0 ≤ l.getD j 0 := by
  have hi : i < l.length := lt_of_le_of_lt hij hj
  have e1 : l.getD i 0 = l.get ⟨i, hi⟩ := by
    simp [List.getD_eq_getElem?_getD, List.getElem?_eq_getElem hi]
  have e2 : l.getD j 0 = l.get ⟨j, hj⟩ := by
    simp [List.getD_eq_getElem?_getD, List.getElem?_eq_getElem hj]
  rw [e1, e2]
  exact hs.rel_get_of_le (by simpa using hij)

/-- C8: for every non-empty sample, `Q1 ≤ median ≤ Q3`, with the quartiles
taken at sorted indices `⌊n/4⌋` and `⌊3n/4⌋` and the median the central
value (or the average of the two central values for even `n`). -/
theorem quartile_ordering (scores : List ℚ) (h : scores ≠ []) :
    q1Of scores ≤ medianOf scores ∧ medianOf scores ≤ q3Of scores := by
  have hsort := sortQ_sorted scores
  have hlen := sortQ_length scores
  have hn : 0 < scores.length := List.length_pos.mpr h
  rw [q1Of, q3Of, medianOf]
  by_cases he : scores.length % 2 = 0
  · rw [if_pos he]
    have hge2 : 2 ≤ scores.length := by omega
    have a1 : (sortQ scores).getD (scores.length / 4) 0 ≤
        (sortQ scores).getD (scores.length / 2 - 1) 0 :=
      sorted_getD_mono hsort (by omega) (by omega)
    have a2 : (sortQ scores).getD (scores.length / 2 - 1) 0 ≤
        (sortQ scores).getD (scores.length / 2) 0 :=
      sorted_getD_mono hsort (by omega) (by omega)
    have a3 : (sortQ scores).getD (scores.length / 2) 0 ≤
        (sortQ scores).getD (3 * scores.length / 4) 0 :=
      sorted_getD_mono hsort (by omega) (by omega)
    constructor <;> linarith
  · rw [if_neg he]
    have a1 : (sortQ scores).getD (scores.length / 4) 0 ≤
        (sortQ scores).getD (scores.length / 2) 0 :=
      sorted_getD_mono hsort (by omega) (by omega)
    have a3 : (sortQ scores).getD (scores.length / 2) 0 ≤
        (sortQ scores).getD (3 * scores.length / 4) 0 :=
      sorted_getD_mono hsort (by omega) (by omega)
    exact ⟨a1, a3⟩

/-- Witness for C8 at Scenario 1's sample. -/
theorem quartile_ordering_witness :
    ([10, 20, 30, 40] : List ℚ) ≠ [] ∧
      (q1Of [10, 20, 30, 40] ≤ medianOf [10, 20, 30, 40] ∧
        medianOf [10, 20, 30, 40] ≤ q3Of [10, 20, 30, 40]) :=
  ⟨by decide, quartile_ordering [10, 20, 30, 40] (by decide)⟩

/-- Folding `min` over a list never exceeds the initial accumulator. -/
theorem foldl_min_le_init (xs : List ℚ) : ∀ a : ℚ, xs.foldl min a ≤ a := by
  induction xs with
  | nil => intro a; simp
  | cons x xs ih => intro a; exact le_trans (ih (min a x)) (min_le_left a x)

/-- Folding `min` over a list is below every member. -/
theorem foldl_min_le_mem (xs : List ℚ) : ∀ a s : ℚ, s ∈ xs → xs.foldl min a ≤ s := by
  induction xs with
  | nil => intro a s hs; cases hs
  | cons x xs ih =>
    intro a s hs
    rcases List.mem_cons.mp hs with rfl | hs
    · exact le_trans (foldl_min_le_init xs (min a s)) (min_le_right a s)
    · exact ih (min a x) s hs

/-- `Math.min(...scores)` is below every score. -/
theorem minOf_le {l : List ℚ} (s : ℚ) (hs : s ∈ l) : minOf l ≤ s := by
  cases l with
  | nil => cases hs
  | cons x xs =>
    rcases List.mem_cons.mp hs with rfl | h
    · exact foldl_min_le_init xs s
    · exact foldl_min_le_mem xs x s h

/-- Folding `max` over a list is above the initial accumulator. -/
theorem init_le_foldl_max (xs : List ℚ) : ∀ a : ℚ, a ≤ xs.foldl max a := by
  induction xs with
  | nil => intro a; simp
  | cons x xs ih => intro a; exact le_trans (le_max_left a x) (ih (max a x))

/-- Folding `max` over a list is above every member. -/
theorem mem_le_foldl_max (xs : List ℚ) : ∀ a s : ℚ, s ∈ xs → s ≤ xs.foldl max a := by
  induction xs with
  | nil => intro a s hs; cases hs
  | cons x xs ih =>
    intro a s hs
    rcases List.mem_cons.mp hs with rfl | hs
    · exact le_trans (le_max_right a s) (init_le_foldl_max xs (max a s))
    · exact ih (max a x) s hs

/-- `Math.max(...scores)` is above every score. -/
theorem le_maxOf {l : List ℚ} (s : ℚ) (hs : s ∈ l) : s ≤ maxOf l := by
  cases l with
  | nil => cases hs
  | cons x xs =>
    rcases List.mem_cons.mp hs with rfl | h
    · exact init_le_foldl_max xs s
    · exact mem_le_foldl_max xs x s h

/-- Over the empty sample every bin is empty. -/
theorem binsFrom_nil_sum (n : ℕ) : ∀ i : ℤ,
    ((binsFrom [] i n).map (fun b => b.count)).sum = 0 := by
  induction n with
  | zero => intro i; rfl
  | succ n ih => intro i; simp [binsFrom, mkBin, ih]

/-- Bin counts split element-wise over a cons. -/
theorem binsFrom_cons_sum (x : ℚ) (xs : List ℚ) (n : ℕ) : ∀ i : ℤ,
    ((binsFrom (x :: xs) i n).map (fun b => b.count)).sum =
      ((binsFrom [x] i n).map (fun b => b.count)).sum +
      ((binsFrom xs i n).map (fun b => b.count)).sum := by
  induction n with
  | zero => intro i; rfl
  | succ n ih =>
    intro i
    simp only [binsFrom, List.map_cons, List.sum_cons]
    rw [ih (i + 5)]
    have hsplit : (mkBin (x :: xs) i).count = (mkBin [x] i).count + (mkBin xs i).count := by
      by_cases hp : ((i:ℚ) ≤ x ∧ x < (i:ℚ) + 5)
      · simp [mkBin, List.filter_cons, hp.1, hp.2]; omega
      · rcases not_and_or.mp hp with hp1 | hp1 <;> simp [mkBin, List.filter_cons, hp1]
    omega

/-- A score strictly left of all bins is counted by none of them. -/
theorem binsFrom_single_zero (n : ℕ) : ∀ (i : ℤ) (x : ℚ), x < (i:ℚ) →
    ((binsFrom [x] i n).map (fun b => b.count)).sum = 0 := by
  induction n with
  | zero => intro i x _; rfl
  | succ n ih =>
    intro i x hx
    simp only [binsFrom, List.map_cons, List.sum_cons]
    rw [ih (i + 5) x (by push_cast; linarith)]
    have hle : ¬ (i:ℚ) ≤ x := not_le.mpr hx
    have hc : (mkBin [x] i).count = 0 := by simp [mkBin, hle]
    omega

/-- A score within the overall bin span is counted by exactly one bin. -/
theorem binsFrom_single_one (n : ℕ) : ∀ (i : ℤ) (x : ℚ), (i:ℚ) ≤ x →
    x < (i:ℚ) + 5 * (n:ℚ) →
    ((binsFrom [x] i n).map (fun b => b.count)).sum = 1 := by
  induction n with
  | zero => intro i x h1 h2; exfalso; push_cast at h2; linarith
  | succ n ih =>
    intro i x h1 h2
    simp only [binsFrom, List.map_cons, List.sum_cons]
    by_cases hx5 : x < (i:ℚ) + 5
    · have hx5' : x < ((i + 5 : ℤ) : ℚ) := by push_cast; linarith
      have hc : (mkBin [x] i).count = 1 := by simp [mkBin, h1, hx5]
      have hz : ((binsFrom [x] (i + 5) n).map (fun b => b.count)).sum = 0 :=
        binsFrom_single_zero n (i + 5) x hx5'
      omega
    · have hc : (mkBin [x] i).count = 0 := by simp [mkBin, hx5]
      have h1' : ((i + 5 : ℤ) : ℚ) ≤ x := by push_cast; linarith [not_lt.mp hx5]
      have h2' : x < ((i + 5 : ℤ) : ℚ) + 5 * (n:ℚ) := by push_cast at h2 ⊢; linarith
      rw [ih (i + 5) x h1' h2']
      omega

/-- If every score lies in the overall span of the `n` bins starting at `i`,
the bin counts sum to the number of scores. -/
theorem binsFrom_sum (xs : List ℚ) (i : ℤ) (n : ℕ)
    (hb : ∀ s ∈ xs, (i:ℚ) ≤ s ∧ s < (i:ℚ) + 5 * (n:ℚ)) :
    ((binsFrom xs i n).map (fun b => b.count)).sum = xs.length := by
  induction xs with
  | nil => simpa using binsFrom_nil_sum n i
  | cons x xs ih =>
    rw [binsFrom_cons_sum,
      binsFrom_single_one n i x (hb x (by simp)).1 (hb x (by simp)).2,
      ih (fun s hs => hb s (by simp [hs]))]
    simp [List.length_cons]
    omega

/-- C6: for every non-empty sample, the histogram bin counts sum to the
sample length (every score falls in exactly one bin). -/
theorem histogram_counts_sum (scores : List ℚ) (h : scores ≠ []) :
    ((histogramData scores).map (fun b => b.count)).sum = scores.length := by
  rw [histogramData, if_neg h]
  have hd0 : ⌊minOf scores / 5⌋ ≤ ⌈maxOf scores / 5⌉ := by
    rcases List.exists_mem_of_ne_nil scores h with ⟨s, hs⟩
    have h1 : minOf scores ≤ maxOf scores :=
      le_trans (minOf_le s hs) (le_maxOf s hs)
    exact le_trans (Int.floor_le_floor (by linarith))
      (Int.floor_le_ceil (maxOf scores / 5))
  have hdiv : (5 * ⌈maxOf scores / 5⌉ - 5 * ⌊minOf scores / 5⌋) / 5 =
      ⌈maxOf scores / 5⌉ - ⌊minOf scores / 5⌋ := by
    rw [← Int.mul_sub, Int.mul_ediv_cancel_left _ (by norm_num : (5:ℤ) ≠ 0)]
  rw [hdiv]
  apply binsFrom_sum
  intro s hs
  have hmin : minOf scores ≤ s := minOf_le s hs
  have hmax : s ≤ maxOf scores := le_maxOf s hs
  have hfl : (⌊minOf scores / 5⌋ : ℚ) ≤ minOf scores / 5 := Int.floor_le _
  have hce : maxOf scores / 5 ≤ (⌈maxOf scores / 5⌉ : ℚ) := Int.le_ceil _
  have hcast : (((⌈maxOf scores / 5⌉ - ⌊minOf scores / 5⌋ + 1).toNat : ℕ) : ℚ) =
      (⌈maxOf scores / 5⌉ : ℚ) - (⌊minOf scores / 5⌋ : ℚ) + 1 := by
    have ht : ((⌈maxOf scores / 5⌉ - ⌊minOf scores / 5⌋ + 1).toNat : ℤ) =
        ⌈maxOf scores / 5⌉ - ⌊minOf scores / 5⌋ + 1 :=
      Int.toNat_of_nonneg (by omega)
    rw [show (((⌈maxOf scores / 5⌉ - ⌊minOf scores / 5⌋ + 1).toNat : ℕ) : ℚ) =
        (((⌈maxOf scores / 5⌉ - ⌊minOf scores / 5⌋ + 1).toNat : ℤ) : ℚ) from
      (Int.cast_natCast _).symm, ht]
    push_cast
    ring
  constructor
  · push_cast
    linarith
  · rw [hcast]
    push_cast
    linarith

/-- Witness for C6 at the Scenario 5 sample. -/
theorem histogram_counts_sum_witness :
    ([2, 7, 7, 19] : List ℚ) ≠ [] ∧
      ((histogramData [2, 7, 7, 19]).map (fun b => b.count)).sum =
        ([2, 7, 7, 19] : List ℚ).length :=
  ⟨by decide, histogram_counts_sum [2, 7, 7, 19] (by decide)⟩

/-- C7: for a requested count ≥ 1 and any random source with values in
(0,1), the Sampler's output has length `count`, is sorted non-decreasing,
and every score lies in [0, 100] and is an integer multiple of 0.1. -/
theorem generateScores_spec (numStudents : ℕ) (meanScore stdDev : ℝ)
    (rand : ℕ → ℝ × ℝ) (hcount : 1 ≤ numStudents)
    (hrand : ∀ k, 0 < (rand k).1 ∧ (rand k).1 < 1 ∧ 0 < (rand k).2 ∧ (rand k).2 < 1) :
    (generateScores numStudents meanScore stdDev rand).length = numStudents ∧
    (generateScores numStudents meanScore stdDev rand).Sorted (· ≤ ·) ∧
    ∀ s ∈ generateScores numStudents meanScore stdDev rand,
      0 ≤ s ∧ s ≤ 100 ∧ ∃ k : ℤ, s = (k : ℝ) / 10 := by
  refine ⟨?_, ?_, ?_⟩
  · rw [generateScores, List.length_insertionSort, List.length_map, List.length_range]
  · exact List.sorted_insertionSort _ _
  · intro s hs
    rw [generateScores, List.mem_insertionSort] at hs
    rcases List.mem_map.mp hs with ⟨k, _, rfl⟩
    rw [boxMullerScore]
    refine ⟨le_max_left _ _, ?_, ?_⟩
    · exact max_le (by norm_num) (le_trans (min_le_left _ _) (by norm_num))
    · rcases le_total 100 (jsRound10R (meanScore + stdDev * boxMullerZ (rand k).1 (rand k).2))
        with h1 | h1
      · rw [min_eq_left h1, max_eq_right (by norm_num : (0:ℝ) ≤ 100)]
        exact ⟨1000, by norm_num⟩
      · rw [min_eq_right h1]
        rcases le_total 0 (jsRound10R (meanScore + stdDev * boxMullerZ (rand k).1 (rand k).2))
          with h2 | h2
        · rw [max_eq_right h2]
          exact ⟨⌊(meanScore + stdDev * boxMullerZ (rand k).1 (rand k).2) * 10 + 1/2⌋, rfl⟩
        · rw [max_eq_left h2]
          exact ⟨0, by norm_num⟩

/-- Witness for C7: one student, mean 75, standard deviation 12, and the
constant random source (1/2, 1/2). -/
theorem generateScores_spec_witness :
    1 ≤ 1 ∧
    (∀ k : ℕ, 0 < ((fun _ : ℕ => ((1:ℝ)/2, (1:ℝ)/2)) k).1 ∧
      ((fun _ : ℕ => ((1:ℝ)/2, (1:ℝ)/2)) k).1 < 1 ∧
      0 < ((fun _ : ℕ => ((1:ℝ)/2, (1:ℝ)/2)) k).2 ∧
      ((fun _ : ℕ => ((1:ℝ)/2, (1:ℝ)/2)) k).2 < 1) ∧
    ((generateScores 1 75 12 (fun _ => ((1:ℝ)/2, (1:ℝ)/2))).length = 1 ∧
      (generateScores 1 75 12 (fun _ => ((1:ℝ)/2, (1:ℝ)/2))).Sorted (· ≤ ·) ∧
      ∀ s ∈ generateScores 1 75 12 (fun _ => ((1:ℝ)/2, (1:ℝ)/2)),
        0 ≤ s ∧ s ≤ 100 ∧ ∃ k : ℤ, s = (k : ℝ) / 10) :=
  ⟨le_refl 1,
   fun _ => ⟨by norm_num, by norm_num, by norm_num, by norm_num⟩,
   generateScores_spec 1 75 12 (fun _ => ((1:ℝ)/2, (1:ℝ)/2)) (le_refl 1)
     (fun _ => ⟨by norm_num, by norm_num, by norm_num, by norm_num⟩)⟩

/-- C2 (counterexample): the density-curve `y` values are NOT the scaled
Gaussian density at the sample's full-precision mean and standard
deviation.  On the sample [0, 1.004, 2.008] the full-precision mean and
standard deviation are both 1.004, but `normalCurveData` re-parses them
from the 2-decimal formatted statistics as 1, and at the grid point x = 1
the two densities differ. -/
theorem curve_full_precision_counterexample :
    ¬ (∀ (scores : List ℚ) (cutoff : ℚ), ∀ p ∈ normalCurveData scores cutoff,
        p.y = gaussPdf ((meanOf scores : ℚ) : ℝ) (standardDevOf scores) p.x *
          scores.length * 5) := by
  intro hcl
  have hmean : meanOf [0, 251/250, 251/125] = 251/250 := by norm_num [meanOf]
  have hvar : varianceOf [0, 251/250, 251/125] = (251/250)^2 := by
    norm_num [varianceOf, hmean]
  have hsd : standardDevOf [0, 251/250, 251/125] = 251/250 := by
    rw [standardDevOf, hvar,
      show (((251/250 : ℚ)^2 : ℚ) : ℝ) = ((251:ℝ)/250)^2 by push_cast; ring]
    exact Real.sqrt_sq (by norm_num)
  have hfix : fix2 (meanOf [0, 251/250, 251/125]) = 1 := by
    rw [fix2, hmean, show (⌊(251/250:ℚ) * 100 + 1/2⌋ : ℤ) = 100 from
      floorQ_eval (by norm_num) (by norm_num)]
    norm_num
  have hcm : curveMean [0, 251/250, 251/125] = 1 := by
    rw [curveMean, hfix]; norm_num
  have hcs : curveSd [0, 251/250, 251/125] = 1 := by
    rw [curveSd, hsd, fix2R, show (⌊(251/250:ℝ) * 100 + 1/2⌋ : ℤ) = 100 from
      floorR_eval (by norm_num) (by norm_num)]
    norm_num
  have hnp : numPoints [0, 251/250, 251/125] = 17 := by
    rw [numPoints, hcs, show (⌊(16:ℝ) * 1⌋ : ℤ) = 16 from
      floorR_eval (by norm_num) (by norm_num)]
    rfl
  have hgx : gridX [0, 251/250, 251/125] 8 = 1 := by
    rw [gridX, hcm, hcs]; norm_num
  have hy := hcl [0, 251/250, 251/125] 0 _ (by
    rw [normalCurveData, if_neg (by decide)]
    exact List.mem_map.mpr ⟨8, List.mem_range.mpr (by rw [hnp]; norm_num), rfl⟩)
  dsimp only at hy
  rw [hmean, hsd, hcm, hcs, hgx] at hy
  have hx1 : fix1R (1:ℝ) = 1 := by
    rw [fix1R, show (⌊(1:ℝ) * 10 + 1/2⌋ : ℤ) = 10 from
      floorR_eval (by norm_num) (by norm_num)]
    norm_num
  rw [hx1] at hy
  have hlen : (([0, 251/250, 251/125] : List ℚ).length : ℝ) = 3 := by norm_num
  rw [hlen] at hy
  -- hy : gaussPdf 1 1 1 * 3 * 5 = gaussPdf (1.004) (1.004) 1 * 3 * 5
  have hS : 0 < Real.sqrt (2 * Real.pi) :=
    Real.sqrt_pos.mpr (by positivity)
  have hpdf1 : gaussPdf 1 1 1 = 1 / Real.sqrt (2 * Real.pi) := by
    rw [gaussPdf]
    norm_num
  have hE : Real.exp (-(1/2) * ((1 - ((251/250 : ℚ) : ℝ)) / ((251/250 : ℚ) : ℝ))^2) ≤ 1 := by
    rw [show (1:ℝ) = Real.exp 0 from Real.exp_zero.symm]
    apply Real.exp_le_exp.mpr
    rw [Real.exp_zero]
    nlinarith [sq_nonneg ((1 - ((251/250 : ℚ) : ℝ)) / ((251/250 : ℚ) : ℝ))]
  have hc : ((251/250 : ℚ) : ℝ) = 251/250 := by push_cast; ring
  have hlt : gaussPdf ((251/250 : ℚ) : ℝ) ((251/250 : ℚ) : ℝ) 1 < 1 / Real.sqrt (2 * Real.pi) := by
    rw [gaussPdf]
    have hpos : 0 < ((251/250 : ℚ) : ℝ) * Real.sqrt (2 * Real.pi) := by
      rw [hc]; positivity
    calc 1 / (((251/250 : ℚ) : ℝ) * Real.sqrt (2 * Real.pi)) *
          Real.exp (-(1/2) * ((1 - ((251/250 : ℚ) : ℝ)) / ((251/250 : ℚ) : ℝ))^2)
        ≤ 1 / (((251/250 : ℚ) : ℝ) * Real.sqrt (2 * Real.pi)) * 1 := by
          apply mul_le_mul_of_nonneg_left hE
          positivity
      _ < 1 / Real.sqrt (2 * Real.pi) := by
          rw [mul_one, hc]
          apply one_div_lt_one_div_of_lt hS
          nlinarith
  rw [hpdf1] at hy
  nlinarith [hy, hlt]

/-- C2 (amended): each density-curve point's `y` equals
`scaleFactor × gaussian density` evaluated at the mean and standard
deviation ROUNDED TO 2 DECIMALS (the values `parseFloat` recovers from the
formatted statistics record), at the grid point `x = mean' - 4·sd' + k·0.5`;
the stored `x` is that grid value formatted to 1 decimal. -/
theorem curve_rounded_mean_sd (scores : List ℚ) (cutoff : ℚ) (h : scores ≠ [])
    (k : ℕ) (hk : k < (normalCurveData scores cutoff).length) :
    ((normalCurveData scores cutoff).getD k dpDefault).y =
      gaussPdf (curveMean scores) (curveSd scores) (gridX scores k) *
        scores.length * 5 ∧
    ((normalCurveData scores cutoff).getD k dpDefault).x = fix1R (gridX scores k) := by
  rw [normalCurveData, if_neg h] at hk ⊢
  rw [List.length_map, List.length_range] at hk
  rw [List.getD_eq_getElem?_getD, List.getElem?_map, List.getElem?_range hk]
  exact ⟨rfl, rfl⟩

/-- Witness for C2 (amended) at the sample [0,1,2], cutoff 0, first point. -/
theorem curve_rounded_mean_sd_witness :
    ([0, 1, 2] : List ℚ) ≠ [] ∧ 0 < (normalCurveData [0, 1, 2] 0).length ∧
    (((normalCurveData [0, 1, 2] 0).getD 0 dpDefault).y =
        gaussPdf (curveMean [0, 1, 2]) (curveSd [0, 1, 2]) (gridX [0, 1, 2] 0) *
          ([0, 1, 2] : List ℚ).length * 5 ∧
      ((normalCurveData [0, 1, 2] 0).getD 0 dpDefault).x = fix1R (gridX [0, 1, 2] 0)) := by
  have hne : ([0, 1, 2] : List ℚ) ≠ [] := by decide
  have hlen : 0 < (normalCurveData [0, 1, 2] 0).length := by
    rw [normalCurveData, if_neg hne, List.length_map, List.length_range, numPoints]
    exact Nat.succ_pos _
  exact ⟨hne, hlen, curve_rounded_mean_sd [0, 1, 2] 0 hne 0 hlen⟩

/-- `foldr max 0` is bounded by `k` iff every member is. -/
theorem foldr_max_le_iff (xs : List ℕ) (k : ℕ) :
    xs.foldr max 0 ≤ k ↔ ∀ x ∈ xs, x ≤ k := by
  induction xs with
  | nil => simp
  | cons x xs ih => simp [max_le_iff, ih]

/-- Every member is bounded by `foldr max 0`. -/
theorem le_foldr_max {xs : List ℕ} {x : ℕ} (hx : x ∈ xs) : x ≤ xs.foldr max 0 := by
  induction xs with
  | nil => cases hx
  | cons y ys ih =>
    rcases List.mem_cons.mp hx with rfl | h
    · exact le_max_left _ _
    · exact le_trans (ih h) (le_max_right _ _)

/-- `foldr max 0` is zero or a member of the list. -/
theorem foldr_max_mem (xs : List ℕ) : xs.foldr max 0 = 0 ∨ xs.foldr max 0 ∈ xs := by
  induction xs with
  | nil => exact Or.inl rfl
  | cons x xs ih =>
    rcases max_choice x (xs.foldr max 0) with h | h
    · right; rw [List.foldr_cons, h]; exact List.mem_cons_self _ _
    · rw [List.foldr_cons, h]
      rcases ih with h0 | hm
      · exact Or.inl h0
      · exact Or.inr (List.mem_cons_of_mem _ hm)

/-- Every attained count is at most the maximum frequency. -/
theorem count_le_maxFreq {l : List ℤ} {v : ℤ} (hv : v ∈ l) :
    l.count v ≤ maxFreqOf l :=
  le_foldr_max (List.mem_map_of_mem _ hv)

/-- On a non-empty tally some value attains the maximum frequency. -/
theorem maxFreq_exists {l : List ℤ} (h : l ≠ []) :
    ∃ v ∈ l, l.count v = maxFreqOf l := by
  rcases foldr_max_mem (l.map (fun v => l.count v)) with h0 | hm
  · rcases List.exists_mem_of_ne_nil l h with ⟨x, hx⟩
    have h1 : 0 < l.count x := List.count_pos_iff.mpr hx
    have h2 : l.count x ≤ maxFreqOf l := count_le_maxFreq hx
    have h3 : maxFreqOf l = 0 := h0
    omega
  · rcases List.mem_map.mp hm with ⟨v, hv, hveq⟩
    exact ⟨v, hv, hveq⟩

/-- On a non-empty tally the maximum frequency is at least 1. -/
theorem maxFreq_pos {l : List ℤ} (h : l ≠ []) : 1 ≤ maxFreqOf l := by
  rcases maxFreq_exists h with ⟨v, hv, hveq⟩
  have := List.count_pos_iff.mpr hv
  omega

/-- Appending one value updates the maximum frequency to
`max (maxFreqOf l) (l.count r + 1)`. -/
theorem maxFreq_append (l : List ℤ) (r : ℤ) :
    maxFreqOf (l ++ [r]) = max (maxFreqOf l) (l.count r + 1) := by
  have hcr : (l ++ [r]).count r = l.count r + 1 := by simp
  apply le_antisymm
  · rw [maxFreqOf, foldr_max_le_iff]
    intro x hx
    rcases List.mem_map.mp hx with ⟨v, hv, rfl⟩
    by_cases hvr : v = r
    · subst hvr; rw [hcr]; exact le_max_right _ _
    · have hvl : v ∈ l := by
        rcases List.mem_append.mp hv with h | h
        · exact h
        · simp at h; exact absurd h hvr
      have hcv : (l ++ [r]).count v = l.count v := by
        simp [List.count_append, List.count_singleton, Ne.symm hvr]
      rw [hcv]
      exact le_trans (count_le_maxFreq hvl) (le_max_left _ _)
  · apply max_le
    · by_cases hl : l = []
      · subst hl; simp [maxFreqOf]
      · rcases maxFreq_exists hl with ⟨v, hv, hveq⟩
        rw [← hveq]
        have h1 : l.count v ≤ (l ++ [r]).count v := by simp
        exact le_trans h1 (count_le_maxFreq (List.mem_append_left _ hv))
    · rw [← hcr]
      exact count_le_maxFreq (List.mem_append_right _ (List.mem_singleton_self r))

/-- `reachAux` distributes over an append of the scanned list. -/
theorem reachAux_append (m : ℕ) (l₂ : List ℤ) : ∀ (l₁ seen : List ℤ),
    reachAux m seen (l₁ ++ l₂) = reachAux m seen l₁ ++ reachAux m (seen ++ l₁) l₂ := by
  intro l₁
  induction l₁ with
  | nil => intro seen; simp [reachAux]
  | cons v l₁ ih =>
    intro seen
    by_cases hc : seen.count v + 1 = m
    · simp only [List.cons_append, reachAux, if_pos hc, List.append_eq]
      rw [ih (seen ++ [v])]
      simp [List.append_assoc]
    · simp only [List.cons_append, reachAux, if_neg hc, List.append_eq]
      rw [ih (seen ++ [v])]
      simp [List.append_assoc]

/-- A value emitted by `reachAux` reached a running count of `m`. -/
theorem reachAux_count_le (m : ℕ) : ∀ (l seen : List ℤ) (v : ℤ),
    v ∈ reachAux m seen l → m ≤ (seen ++ l).count v := by
  intro l
  induction l with
  | nil => intro seen v hv; simp [reachAux] at hv
  | cons w rest ih =>
    intro seen v hv
    by_cases hc : seen.count w + 1 = m
    · rw [reachAux, if_pos hc] at hv
      rcases List.mem_cons.mp hv with rfl | hv'
      · have he : (seen ++ v :: rest).count v = seen.count v + (rest.count v + 1) := by
          simp [List.count_cons]
        omega
      · have h2 := ih (seen ++ [w]) v hv'
        have heq : (seen ++ [w]) ++ rest = seen ++ (w :: rest) := by simp
        rw [heq] at h2
        exact h2
    · rw [reachAux, if_neg hc] at hv
      have h2 := ih (seen ++ [w]) v hv
      have heq : (seen ++ [w]) ++ rest = seen ++ (w :: rest) := by simp
      rw [heq] at h2
      exact h2

/-- A value that already reached count `m` in the prefix is never emitted. -/
theorem reachAux_not_mem (m : ℕ) : ∀ (l seen : List ℤ) (v : ℤ),
    m ≤ seen.count v → v ∉ reachAux m seen l := by
  intro l
  induction l with
  | nil => intro seen v _ hv; simp [reachAux] at hv
  | cons w rest ih =>
    intro seen v h hv
    by_cases hc : seen.count w + 1 = m
    · rw [reachAux, if_pos hc] at hv
      rcases List.mem_cons.mp hv with rfl | hv'
      · omega
      · refine ih (seen ++ [w]) v ?_ hv'
        rw [List.count_append]
        omega
    · rw [reachAux, if_neg hc] at hv
      refine ih (seen ++ [w]) v ?_ hv
      rw [List.count_append]
      omega

/-- `reachAux` emits each value at most once. -/
theorem reachAux_nodup (m : ℕ) : ∀ (l seen : List ℤ), (reachAux m seen l).Nodup := by
  intro l
  induction l with
  | nil => intro seen; simp [reachAux]
  | cons w rest ih =>
    intro seen
    by_cases hc : seen.count w + 1 = m
    · rw [reachAux, if_pos hc, List.nodup_cons]
      refine ⟨?_, ih (seen ++ [w])⟩
      apply reachAux_not_mem
      rw [List.count_append]
      simp [List.count_singleton]
      omega
    · rw [reachAux, if_neg hc]
      exact ih (seen ++ [w])

/-- A value with enough occurrences left is eventually emitted. -/
theorem reachAux_mem (m : ℕ) : ∀ (l seen : List ℤ) (v : ℤ),
    m ≤ seen.count v + l.count v → seen.count v < m → v ∈ reachAux m seen l := by
  intro l
  induction l with
  | nil =>
    intro seen v h1 h2
    exfalso
    simp [List.count_nil] at h1
    omega
  | cons w rest ih =>
    intro seen v h1 h2
    by_cases hvw : v = w
    · subst hvw
      by_cases hc : seen.count v + 1 = m
      · rw [reachAux, if_pos hc]
        exact List.mem_cons_self _ _
      · rw [reachAux, if_neg hc]
        have e1 : (seen ++ [v]).count v = seen.count v + 1 := by simp
        have e2 : (v :: rest).count v = rest.count v + 1 := by simp [List.count_cons]
        refine ih (seen ++ [v]) v ?_ ?_
        · rw [e1]; rw [e2] at h1; omega
        · rw [e1]; omega
    · have e1 : (seen ++ [w]).count v = seen.count v := by
        simp [List.count_append, List.count_singleton, Ne.symm hvw]
      have e2 : (w :: rest).count v = rest.count v := by
        simp [List.count_cons, hvw]
      by_cases hc : seen.count w + 1 = m
      · rw [reachAux, if_pos hc]
        apply List.mem_cons_of_mem
        exact ih (seen ++ [w]) v (by rw [e1]; rw [e2] at h1; omega) (by rw [e1]; omega)
      · rw [reachAux, if_neg hc]
        exact ih (seen ++ [w]) v (by rw [e1]; rw [e2] at h1; omega) (by rw [e1]; omega)

/-- With target 0 nothing is ever emitted. -/
theorem reachAux_zero (l : List ℤ) : ∀ seen, reachAux 0 seen l = [] := by
  induction l with
  | nil => intro seen; rfl
  | cons w rest ih =>
    intro seen
    rw [reachAux, if_neg (by omega)]
    exact ih _

/-- Membership in `reachOrder l m`: the values whose total count reaches
`m` (for a positive target `m`). -/
theorem reachOrder_mem {l : List ℤ} {m : ℕ} {v : ℤ} :
    v ∈ reachOrder l m ↔ 1 ≤ m ∧ m ≤ l.count v := by
  constructor
  · intro hv
    have h2 := reachAux_count_le m l [] v hv
    rw [List.nil_append] at h2
    refine ⟨?_, h2⟩
    by_contra h0
    have hm : m = 0 := by omega
    subst hm
    rw [reachOrder, reachAux_zero l []] at hv
    cases hv
  · rintro ⟨h1, h2⟩
    apply reachAux_mem m l [] v
    · simpa using h2
    · simpa using h1

/-- Appending one value appends it to `reachOrder` exactly when its new
count hits the target. -/
theorem reachOrder_append (l : List ℤ) (r : ℤ) (m : ℕ) :
    reachOrder (l ++ [r]) m =
      reachOrder l m ++ (if l.count r + 1 = m then [r] else []) := by
  rw [reachOrder, reachAux_append m [r] l [], List.nil_append]
  rfl

/-- One `getMode` loop iteration moves the invariant state of prefix `l` to
that of prefix `l ++ [r]`: `maxFreq` is the maximum frequency of the
processed prefix and `modes` lists the values in the order their tally
first reached that frequency. -/
theorem modeStep_state_eq (l : List ℤ) (r : ℤ) :
    modeStep ⟨l, maxFreqOf l, reachOrder l (maxFreqOf l)⟩ r =
      ⟨l ++ [r], maxFreqOf (l ++ [r]), reachOrder (l ++ [r]) (maxFreqOf (l ++ [r]))⟩ := by
  have hcr : (l ++ [r]).count r = l.count r + 1 := by simp
  rcases Nat.lt_trichotomy (maxFreqOf l) (l.count r + 1) with hlt | heq | hgt
  · simp only [modeStep]
    rw [if_pos (by rw [hcr]; exact hlt)]
    have hm : maxFreqOf (l ++ [r]) = l.count r + 1 := by
      rw [maxFreq_append]
      exact max_eq_right (le_of_lt hlt)
    have hempty : reachOrder l (l.count r + 1) = [] := by
      apply List.eq_nil_iff_forall_not_mem.mpr
      intro v hv
      rcases reachOrder_mem.mp hv with ⟨h1, h2⟩
      have hvl : v ∈ l := List.count_pos_iff.mp (by omega)
      have := count_le_maxFreq hvl
      omega
    have hro : reachOrder (l ++ [r]) (l.count r + 1) = [r] := by
      rw [reachOrder_append, if_pos rfl, hempty, List.nil_append]
    rw [hcr, hm, hro]
  · simp only [modeStep]
    have hcond : (l ++ [r]).count r = maxFreqOf l ∧ r ∉ reachOrder l (maxFreqOf l) := by
      refine ⟨by rw [hcr]; omega, ?_⟩
      intro hr
      rcases reachOrder_mem.mp hr with ⟨h1, h2⟩
      omega
    rw [if_neg (by rw [hcr]; omega), if_pos hcond]
    have hm : maxFreqOf (l ++ [r]) = maxFreqOf l := by
      rw [maxFreq_append]
      exact max_eq_left (by omega)
    have hro : reachOrder (l ++ [r]) (maxFreqOf l) =
        reachOrder l (maxFreqOf l) ++ [r] := by
      rw [reachOrder_append, if_pos (by omega)]
    rw [hm, hro]
  · simp only [modeStep]
    rw [if_neg (by rw [hcr]; omega)]
    rw [if_neg (by rintro ⟨h1, _⟩; rw [hcr] at h1; omega)]
    have hm : maxFreqOf (l ++ [r]) = maxFreqOf l := by
      rw [maxFreq_append]
      exact max_eq_left (by omega)
    have hro : reachOrder (l ++ [r]) (maxFreqOf l) = reachOrder l (maxFreqOf l) := by
      rw [reachOrder_append, if_neg (by omega), List.append_nil]
    rw [hm, hro]

/-- The `getMode` fold over any rounded list lands in the invariant state. -/
theorem foldl_modeStep_eq (l : List ℤ) :
    l.foldl modeStep ⟨[], 0, []⟩ = ⟨l, maxFreqOf l, reachOrder l (maxFreqOf l)⟩ := by
  induction l using List.reverseRecOn with
  | nil => rfl
  | append_singleton l r ih =>
    rw [List.foldl_append, ih]
    simp only [List.foldl_cons, List.foldl_nil]
    exact modeStep_state_eq l r

/-- The source's "No mode" test (`modes.length === Object.keys(frequency).length`)
holds iff every tallied value attains the maximum frequency. -/
theorem reachOrder_length_eq_dedup_iff (l : List ℤ) :
    (reachOrder l (maxFreqOf l)).length = l.dedup.length ↔
      ∀ v ∈ l, l.count v = maxFreqOf l := by
  rcases eq_or_ne l [] with rfl | hne
  · simp [reachOrder, reachAux]
  · have hm1 : 1 ≤ maxFreqOf l := maxFreq_pos hne
    have hnod : (reachOrder l (maxFreqOf l)).Nodup := reachAux_nodup _ l []
    have hmemiff : ∀ v, v ∈ reachOrder l (maxFreqOf l) ↔
        v ∈ l.dedup.filter (fun v => decide (l.count v = maxFreqOf l)) := by
      intro v
      rw [reachOrder_mem, List.mem_filter, List.mem_dedup]
      constructor
      · rintro ⟨h1, h2⟩
        have hv : v ∈ l := List.count_pos_iff.mp (by omega)
        have := count_le_maxFreq hv
        refine ⟨hv, ?_⟩
        simp only [decide_eq_true_eq]
        omega
      · rintro ⟨hv, hcnt⟩
        simp only [decide_eq_true_eq] at hcnt
        exact ⟨hm1, by omega⟩
    have hperm : List.Perm (reachOrder l (maxFreqOf l))
        (l.dedup.filter (fun v => decide (l.count v = maxFreqOf l))) :=
      (List.perm_ext_iff_of_nodup hnod ((List.nodup_dedup l).filter _)).mpr hmemiff
    rw [hperm.length_eq]
    constructor
    · intro hlen
      have heq := (List.filter_sublist l.dedup).eq_of_length hlen
      intro v hv
      have := List.filter_eq_self.mp heq v (List.mem_dedup.mpr hv)
      simpa using this
    · intro hall
      have heq : l.dedup.filter (fun v => decide (l.count v = maxFreqOf l)) = l.dedup :=
        List.filter_eq_self.mpr (fun v hv => by
          simp only [decide_eq_true_eq]
          exact hall v (List.mem_dedup.mp hv))
      rw [heq]

/-- C3 (counterexample): on [1, 2, 2, 1, 3] the mode is reported as
"2, 1" — 2 and 1 both attain the maximum frequency 2, but they are listed
in the order their tallies reached that frequency, NOT in the order they
were first encountered (which would give "1, 2" as the claim states). -/
theorem mode_order_counterexample :
    getMode [1, 2, 2, 1, 3] = "2, 1" ∧ getModeSpecC3 [1, 2, 2, 1, 3] = "1, 2" ∧
      getMode [1, 2, 2, 1, 3] ≠ getModeSpecC3 [1, 2, 2, 1, 3] := by
  have h1 : jsRound (1:ℚ) = 1 := by
    rw [jsRound]; exact floorQ_eval (by norm_num) (by norm_num)
  have h2 : jsRound (2:ℚ) = 2 := by
    rw [jsRound]; exact floorQ_eval (by norm_num) (by norm_num)
  have h3 : jsRound (3:ℚ) = 3 := by
    rw [jsRound]; exact floorQ_eval (by norm_num) (by norm_num)
  have hmap : ([1, 2, 2, 1, 3] : List ℚ).map jsRound = [1, 2, 2, 1, 3] := by
    simp [h1, h2, h3]
  have ha : getMode [1, 2, 2, 1, 3] = "2, 1" := by
    rw [getMode, hmap]; decide
  have hb : getModeSpecC3 [1, 2, 2, 1, 3] = "1, 2" := by
    rw [getModeSpecC3]
    simp only [hmap]
    decide
  refine ⟨ha, hb, ?_⟩
  rw [ha, hb]
  decide

/-- C3 (amended): for every sample, `getMode` reports "No mode" exactly
when every distinct rounded value occurs with the same (i.e. the maximum)
frequency, and otherwise the comma-joined values in the order each value's
tally first reached the maximum frequency; the second conjunct states that
those listed values are exactly the rounded values achieving the maximum
frequency. -/
theorem getMode_amended (arr : List ℚ) :
    getMode arr =
      (if ∀ v ∈ arr.map jsRound,
          (arr.map jsRound).count v = maxFreqOf (arr.map jsRound)
        then "No mode"
        else String.intercalate ", "
          ((reachOrder (arr.map jsRound) (maxFreqOf (arr.map jsRound))).map toString)) ∧
    ∀ v : ℤ,
      (v ∈ reachOrder (arr.map jsRound) (maxFreqOf (arr.map jsRound)) ↔
        ((arr.map jsRound).count v = maxFreqOf (arr.map jsRound) ∧
          v ∈ arr.map jsRound)) := by
  constructor
  · rw [getMode]
    simp only [getModeZ, foldl_modeStep_eq]
    exact if_congr (reachOrder_length_eq_dedup_iff _) rfl rfl
  · intro v
    constructor
    · intro hv
      rcases reachOrder_mem.mp hv with ⟨h1, h2⟩
      have hvl : v ∈ arr.map jsRound := List.count_pos_iff.mp (by omega)
      exact ⟨le_antisymm (count_le_maxFreq hvl) h2, hvl⟩
    · rintro ⟨hcnt, hvl⟩
      exact reachOrder_mem.mpr ⟨maxFreq_pos (List.ne_nil_of_mem hvl), le_of_eq hcnt.symm⟩
